import Mathlib

/-!
Verification development for the breakout-room solver (`src/solver.py`).

Modelling conventions:
* Students and room identifiers are natural numbers (Python uses small ints).
* Happiness, stress and the budget are rationals (the spec calls them reals;
  all concrete inputs below use small integers, on which Python float
  arithmetic is exact).
* A Python dict is modelled as an insertion-ordered association list with
  unique keys; updating an existing key rewrites it in place, a new key is
  appended, exactly like CPython dicts.
* Python's `int` room count `k` is modelled as `ℤ` (so `k - 1` and `k - 2`
  can be negative, as in Python).
* A computation that can raise `ZeroDivisionError` returns `Option`:
  `none` models the raised exception.
* Iteration over `set(D.values())` is modelled as iteration in increasing
  order: in CPython, a set of small non-negative ints (all below the hash
  table size, as in every run considered here) iterates in increasing order.
* `utils.calculate_happiness`, `utils.calculate_stress_for_room` are imported
  by `solver.py` but their file is not part of the sources; they are modelled
  from the spec (sections 3 and 4.2), see the doc comments below.
-/

set_option maxRecDepth 100000

namespace BreakoutRooms

/-- One undirected edge of the input graph, carrying the `happiness` and
`stress` attributes of the student pair `(u, v)`. -/
structure Edge where
  u : ℕ
  v : ℕ
  happiness : ℚ
  stress : ℚ
deriving DecidableEq, Repr

/-- The input graph: students `0, …, n-1` plus an attribute-carrying edge
list (a missing pair has implicit zero happiness and stress). -/
structure Graph where
  n : ℕ
  edges : List Edge
deriving DecidableEq, Repr

/-- A Python dict from student to room: insertion-ordered association list. -/
abbrev Dict := List (ℕ × ℕ)

/-- Membership test `s in D` on a Python dict. -/
def hasKey (D : Dict) (s : ℕ) : Bool :=
  D.any (fun p => p.1 = s)

/-- Lookup `D[s]`; total with default `0` (every lookup performed by the
modelled code is on a present key). -/
def dlookup (D : Dict) (s : ℕ) : ℕ :=
  ((D.find? (fun p => p.1 = s)).map Prod.snd).getD 0

/-- Assignment `D[s] = r` on a Python dict: rewrite in place if the key is
present, append otherwise. -/
def dset (D : Dict) (s r : ℕ) : Dict :=
  if hasKey D s then D.map (fun p => if p.1 = s then (s, r) else p)
  else D ++ [(s, r)]

/-- The value list `D.values()` in dict order. -/
def dvalues (D : Dict) : List ℕ :=
  D.map Prod.snd

/-- The occupancy view `room_to_s[r]`: students currently in room `r`, in
dict order (the dict `room_to_s` is rebuilt from `D` at each use site). -/
def roomToS (D : Dict) (r : ℕ) : List ℕ :=
  (D.filter (fun p => p.2 = r)).map Prod.fst

/-- `len(set(D.values()))`: number of distinct rooms in use. -/
def distinctCount (D : Dict) : ℕ :=
  (dvalues D).dedup.length

/-- The set of rooms in use, as a finset (for invariant statements). -/
def roomsFin (D : Dict) : Finset ℕ :=
  (dvalues D).toFinset

/-- Attribute lookup: stress of the pair `{a, b}`, `0` when no edge exists. -/
def edgeStress (G : Graph) (a b : ℕ) : ℚ :=
  match G.edges.find? (fun e => (e.u = a && e.v = b) || (e.u = b && e.v = a)) with
  | some e => e.stress
  | none => 0

/-- Attribute lookup: happiness of the pair `{a, b}`, `0` when no edge
exists. -/
def edgeHappiness (G : Graph) (a b : ℕ) : ℚ :=
  match G.edges.find? (fun e => (e.u = a && e.v = b) || (e.u = b && e.v = a)) with
  | some e => e.happiness
  | none => 0

/-- All unordered pairs of a list, in `itertools.combinations` order. -/
def allPairs : List ℕ → List (ℕ × ℕ)
  | [] => []
  | x :: xs => xs.map (fun y => (x, y)) ++ allPairs xs

/-- Modelled from the spec: `utils.calculate_stress_for_room` is imported by
`solver.py` but its source file is absent; per spec section 4.2 the stress of
a room is the sum of the `stress` attribute over all unordered pairs of its
occupant list (missing edge contributes 0). -/
def calculate_stress_for_room (room : List ℕ) (G : Graph) : ℚ :=
  ((allPairs room).map (fun p => edgeStress G p.1 p.2)).sum

/-- Modelled from the spec: `utils.calculate_happiness` is imported by
`solver.py` but its source file is absent; per spec section 4.2 the total
happiness of a partition is the sum over induced rooms of the room happiness,
which is the sum of the `happiness` attribute over unordered occupant pairs. -/
def calculate_happiness (D : Dict) (G : Graph) : ℚ :=
  ((dvalues D).dedup.map
    (fun r => ((allPairs (roomToS D r)).map (fun p => edgeHappiness G p.1 p.2)).sum)).sum

/-- Insertion step of a stable insertion sort: place `x` after every element
`y` with `le y x`. -/
def insertLe (le : α → α → Bool) (x : α) : List α → List α
  | [] => [x]
  | y :: ys => if le y x then y :: insertLe le x ys else x :: y :: ys

/-- Stable sort by `le` (models Python's stable `sorted`). -/
def sortLe (le : α → α → Bool) (l : List α) : List α :=
  l.foldl (fun acc x => insertLe le x acc) []

/-- `sorted(G.edges(data=True), key=stress)` from `create_initial_mapping`. -/
def isortEdges (l : List Edge) : List Edge :=
  sortLe (fun a b => decide (a.stress ≤ b.stress)) l

/-- Ascending sort of room labels: models CPython iteration order over a set
of small non-negative ints. -/
def sortNat (l : List ℕ) : List ℕ :=
  sortLe (fun a b => decide (a ≤ b)) l

/-- Iteration order of `rooms_in_use = set(D.values())`. -/
def roomsInUse (D : Dict) : List ℕ :=
  sortNat (dvalues D).dedup

/-- One step of the first pass of `create_initial_mapping` (solver.py lines
61-66): if both endpoints are unassigned and the edge stress is at most
`s / num_students`, put the pair in a fresh room. -/
def pairStep (s : ℚ) (N : ℕ) (acc : Dict × ℕ) (e : Edge) : Dict × ℕ :=
  if hasKey acc.1 e.u = false ∧ hasKey acc.1 e.v = false then
    if e.stress ≤ s / (N : ℚ) then
      (acc.1 ++ [(e.u, acc.2), (e.v, acc.2)], acc.2 + 1)
    else acc
  else acc

/-- One step of the second pass of `create_initial_mapping` (lines 70-73):
each still-unassigned student gets a fresh room of their own. -/
def singleStep (acc : Dict × ℕ) (i : ℕ) : Dict × ℕ :=
  if hasKey acc.1 i = false then (acc.1 ++ [(i, acc.2)], acc.2 + 1) else acc

/-- `create_initial_mapping(G, s)` (solver.py lines 36-75). Returns the
greedy initial partition and `k = num_students`. -/
def create_initial_mapping (G : Graph) (s : ℚ) : Dict × ℤ :=
  let N := G.n
  let edges_by_stress := isortEdges G.edges
  let acc1 := edges_by_stress.foldl (pairStep s N) ([], 0)
  let acc2 := (List.range N).foldl singleStep acc1
  (acc2.1, (N : ℤ))

/-- `is_valid_swap(student1, student2, D, rooms_to_s, k, G, s)` (solver.py
lines 244-299). `none` models a raised `ZeroDivisionError`. Note the second
guard compares the occupancy lengths with 0, exactly as the source does. -/
def is_valid_swap (student1 student2 : ℕ) (D : Dict) (roomsToS : ℕ → List ℕ)
    (k : ℤ) (G : Graph) (s : ℚ) : Option Bool :=
  let student_one_room := dlookup D student1
  let student_two_room := dlookup D student2
  if student_one_room = student_two_room then some false
  else if (roomsToS student_one_room).length = 0 ∧ (roomsToS student_two_room).length = 0 then
    some false
  else
    let student_one_moved := ((roomsToS student_two_room).erase student2) ++ [student1]
    let student_two_moved := ((roomsToS student_one_room).erase student1) ++ [student2]
    if k = 0 then none
    else
      let max_stress := s / (k : ℚ)
      if calculate_stress_for_room student_one_moved G > max_stress then some false
      else if calculate_stress_for_room student_two_moved G > max_stress then some false
      else some true

/-- `is_valid_move(student, room, D, rooms_to_s, k, G, s)` (solver.py lines
303-347). `none` models a raised `ZeroDivisionError`. -/
def is_valid_move (student room : ℕ) (D : Dict) (roomsToS : ℕ → List ℕ)
    (k : ℤ) (G : Graph) (s : ℚ) : Option Bool :=
  let student_room := dlookup D student
  if student_room = room then some false
  else
    let student_moved := roomsToS room ++ [student]
    if (roomsToS student_room).length = 1 then
      if k - 1 = 0 then none
      else if calculate_stress_for_room student_moved G > s / ((k - 1 : ℤ) : ℚ) then some false
      else some true
    else
      if k = 0 then none
      else if calculate_stress_for_room student_moved G > s / ((k : ℤ) : ℚ) then some false
      else some true

/-- `is_valid_move2(student1, student2, room1, room2, D, rooms_to_s, k, G, s)`
(solver.py lines 350-418). `none` models a raised `ZeroDivisionError`. -/
def is_valid_move2 (student1 student2 room1 room2 : ℕ) (D : Dict)
    (roomsToS : ℕ → List ℕ) (k : ℤ) (G : Graph) (s : ℚ) : Option Bool :=
  let student1_room := dlookup D student1
  let student2_room := dlookup D student2
  if student1_room = room1 then some false
  else if student2_room = room2 then some false
  else if (roomsToS student1_room).length ≠ 1 then some false
  else if (roomsToS student2_room).length ≠ 1 then some false
  else if room1 = room2 then
    let students_moved := roomsToS room1 ++ [student1, student2]
    if k - 2 = 0 then none
    else if calculate_stress_for_room students_moved G > s / ((k - 2 : ℤ) : ℚ) then some false
    else some true
  else
    let student1_moved := roomsToS room1 ++ [student1]
    let student2_moved := roomsToS room2 ++ [student2]
    if k - 2 = 0 then none
    else if calculate_stress_for_room student1_moved G > s / ((k - 2 : ℤ) : ℚ) then some false
    else if calculate_stress_for_room student2_moved G > s / ((k - 2 : ℤ) : ℚ) then some false
    else some true

/-- Filter a list by a fallible predicate, stopping at the first fault: the
Python nested loops raise as soon as one feasibility call raises. -/
def optFilter (p : α → Option Bool) : List α → Option (List α)
  | [] => some []
  | a :: as =>
    match p a with
    | none => none
    | some b =>
      match optFilter p as with
      | none => none
      | some rest => some (if b then a :: rest else rest)

/-- `move_neighborhood(G, s, D, k)` (solver.py lines 460-497): all `(student,
room)` pairs, student-major then ascending room label, passing
`is_valid_move`. -/
def move_neighborhood (G : Graph) (s : ℚ) (D : Dict) (k : ℤ) :
    Option (List (ℕ × ℕ)) :=
  let occ := roomToS D
  let cands := (List.range G.n).flatMap
    (fun student => (roomsInUse D).map (fun room => (student, room)))
  optFilter (fun c => is_valid_move c.1 c.2 D occ k G s) cands

/-- `swap_neighborhood(G, s, D, k)` (lines 421-456): both loops run over all
students (the `j = i + 1` in the source is dead code, `j` is rebound by its
`for` loop). -/
def swap_neighborhood (G : Graph) (s : ℚ) (D : Dict) (k : ℤ) :
    Option (List (ℕ × ℕ)) :=
  let occ := roomToS D
  let cands := (List.range G.n).flatMap
    (fun i => (List.range G.n).map (fun j => (i, j)))
  optFilter (fun c => is_valid_swap c.1 c.2 D occ k G s) cands

/-- `move2_neighborhood(G, s, D, k)` (lines 500-543): quadruple loop over
student pairs and ordered room pairs; a candidate is
`[[student1, room1], [student2, room2]]`. -/
def move2_neighborhood (G : Graph) (s : ℚ) (D : Dict) (k : ℤ) :
    Option (List ((ℕ × ℕ) × (ℕ × ℕ))) :=
  let occ := roomToS D
  let rooms := roomsInUse D
  let cands := (List.range G.n).flatMap (fun student1 =>
    (List.range G.n).flatMap (fun student2 =>
      rooms.flatMap (fun room1 =>
        rooms.map (fun room2 => ((student1, room1), (student2, room2))))))
  optFilter (fun c => is_valid_move2 c.1.1 c.2.1 c.1.2 c.2.2 D occ k G s) cands

/-- `swap(student1, student2, D)` (solver.py lines 546-563). The source line
is `D[student2], D[student1] = D[student2], D[student1]`: Python evaluates
the right-hand tuple first, so each student is reassigned their own current
room. The model reproduces this literally. -/
def swap (student1 student2 : ℕ) (D : Dict) : Dict :=
  let rhs2 := dlookup D student2
  let rhs1 := dlookup D student1
  dset (dset D student2 rhs2) student1 rhs1

/-- `move(student, room, D)` (lines 567-583). -/
def move (student room : ℕ) (D : Dict) : Dict :=
  dset D student room

/-- `move2(student1, student2, room1, room2, D)` (lines 585-604): two
sequential assignments. -/
def move2 (student1 student2 room1 room2 : ℕ) (D : Dict) : Dict :=
  dset (dset D student1 room1) student2 room2

/-- The candidate-scanning loop shared by the three local-search drivers:
track the best happiness so far (initialised to 0) and the first candidate
attaining it, using a strict `>` comparison. Each candidate is scored against
the pristine input partition: in the source the candidate is applied to
`best_change` and then reverted, and the apply/revert pair restores the dict
exactly (only the moved students' entries are touched and they are restored
from the unmutated `D`). -/
def bestScan (score : α → ℚ) : List α → ℚ → Option α → ℚ × Option α
  | [], h, b => (h, b)
  | c :: cs, h, b =>
    if score c > h then bestScan score cs (score c) (some c)
    else bestScan score cs h b

/-- `local_search_move(D, G, potential_changes)` (solver.py lines 128-163):
score every candidate, then apply the best one (if any) and return the
resulting partition with the best happiness found. -/
def local_search_move (D : Dict) (G : Graph) (cands : List (ℕ × ℕ)) :
    Dict × ℚ :=
  let r := bestScan (fun c => calculate_happiness (move c.1 c.2 D) G) cands 0 none
  match r.2 with
  | some c => (move c.1 c.2 D, r.1)
  | none => (D, r.1)

/-- `local_search_swap(D, G, potential_changes)` (lines 166-202): same
scheme with the `swap` operation. -/
def local_search_swap (D : Dict) (G : Graph) (cands : List (ℕ × ℕ)) :
    Dict × ℚ :=
  let r := bestScan (fun c => calculate_happiness (swap c.1 c.2 D) G) cands 0 none
  match r.2 with
  | some c => (swap c.1 c.2 D, r.1)
  | none => (D, r.1)

/-- `local_search_move2(D, G, potential_changes)` (lines 204-242). The final
application at line 239 uses the loop variable `change` — the LAST candidate
of the list — not `best_move`; the model reproduces this faithfully. -/
def local_search_move2 (D : Dict) (G : Graph)
    (cands : List ((ℕ × ℕ) × (ℕ × ℕ))) : Dict × ℚ :=
  let r := bestScan
    (fun c => calculate_happiness (move2 c.1.1 c.2.1 c.1.2 c.2.2 D) G) cands 0 none
  match r.2 with
  | some _ =>
    match cands.getLast? with
    | some c => (move2 c.1.1 c.2.1 c.1.2 c.2.2 D, r.1)
    | none => (D, r.1)
  | none => (D, r.1)

/-- State of the `seqVND` while loop: current partition, room count,
`curr_happiness_rating`, and `current_neighborhood`. -/
structure VState where
  D : Dict
  k : ℤ
  curr : ℚ
  nbh : ℕ
deriving DecidableEq, Repr

/-- Entry state of `seqVND(G, s, D, k)` (lines 99-104). -/
def mkVState (G : Graph) (D : Dict) (k : ℤ) : VState :=
  ⟨D, k, calculate_happiness D G, 1⟩

/-- One iteration of the `seqVND` while loop (lines 107-123): run the
current neighborhood's generator and driver; on `best_neighborhood_happiness
> curr_happiness_rating` adopt the returned partition, recompute `k` and the
happiness rating and restart at neighborhood 1, otherwise advance to the
next neighborhood. `none` models a raised exception. -/
def vndStep (G : Graph) (s : ℚ) (st : VState) : Option VState :=
  let driver : Option (Dict × ℚ) :=
    if st.nbh = 1 then
      (move_neighborhood G s st.D st.k).map (fun cs => local_search_move st.D G cs)
    else if st.nbh = 2 then
      (swap_neighborhood G s st.D st.k).map (fun cs => local_search_swap st.D G cs)
    else
      (move2_neighborhood G s st.D st.k).map (fun cs => local_search_move2 st.D G cs)
  driver.map (fun bd =>
    if bd.2 > st.curr then
      ⟨bd.1, (distinctCount bd.1 : ℤ), calculate_happiness bd.1 G, 1⟩
    else ⟨st.D, st.k, st.curr, st.nbh + 1⟩)

/-- Outcome of running `seqVND` with a step budget: the loop either raised
(`fault`), ran out of budget while still looping (`timeout`), or exited
normally returning `D, k` (`done`). -/
inductive RunRes where
  | fault : RunRes
  | timeout : VState → RunRes
  | done : Dict → ℤ → RunRes
deriving DecidableEq, Repr

/-- Whether a run outcome is a normal termination of the while loop. -/
def isDone : RunRes → Bool
  | .done _ _ => true
  | _ => false

/-- Fuelled execution of the `seqVND` while loop (lines 107-125): loop while
`current_neighborhood <= 3`. -/
def vndRun (G : Graph) (s : ℚ) : ℕ → VState → RunRes
  | 0, st => .timeout st
  | fuel + 1, st =>
    if st.nbh > 3 then .done st.D st.k
    else
      match vndStep G s st with
      | none => .fault
      | some st2 => vndRun G s fuel st2

/-- `solve(G, s)` (solver.py lines 12-33): build the initial mapping, then
run `seqVND` on it (with a step budget, since the loop need not terminate). -/
def solve (G : Graph) (s : ℚ) (fuel : ℕ) : RunRes :=
  let p := create_initial_mapping G s
  vndRun G s fuel (mkVState G p.1 p.2)

/-- The single-move feasibility rule as the claim (and spec section 4.3)
states it: reject if the student is already in the target room; otherwise
the ceiling is `budget/(k-1)` when the mover's current room would become
empty after their removal ("vacated"), `budget/k` otherwise, and the move is
allowed exactly when the stress of the destination room's occupants plus
the mover is at most the ceiling. -/
def can_move_specification (student room : ℕ) (D : Dict) (k : ℤ) (G : Graph)
    (s : ℚ) : Bool :=
  if dlookup D student = room then false
  else
    let divisor : ℤ :=
      if (roomToS D (dlookup D student)).length = 1 then k - 1 else k
    decide (calculate_stress_for_room (roomToS D room ++ [student]) G ≤ s / (divisor : ℚ))

/-- Modelled from the spec (section 4.7, claim side of the refinement): the
pairing pass walks an edge list, assigning a fresh room to any pair of
still-unassigned endpoints whose stress is at most `s / N`. -/
def specPairPass (s : ℚ) (N : ℕ) : List Edge → Dict → ℕ → Dict × ℕ
  | [], D, c => (D, c)
  | e :: rest, D, c =>
    if hasKey D e.u = false ∧ hasKey D e.v = false then
      if e.stress ≤ s / (N : ℚ) then
        specPairPass s N rest (D ++ [(e.u, c), (e.v, c)]) (c + 1)
      else specPairPass s N rest D c
    else specPairPass s N rest D c

/-- Modelled from the spec (section 4.7, claim side of the refinement): the
second pass assigns every still-unassigned student a fresh room of their
own. -/
def specSinglePass : List ℕ → Dict → ℕ → Dict × ℕ
  | [], D, c => (D, c)
  | i :: rest, D, c =>
    if hasKey D i = false then specSinglePass rest (D ++ [(i, c)]) (c + 1)
    else specSinglePass rest D c

/-- Modelled from the spec (section 4.7, claim side of the refinement): sort
the edges ascending by stress, run the pairing pass, then the singleton
pass, and return the partition with `k = N`. -/
def initial_mapping_specification (G : Graph) (s : ℚ) : Dict × ℤ :=
  let p := specPairPass s G.n (isortEdges G.edges) [] 0
  let q := specSinglePass (List.range G.n) p.1 p.2
  (q.1, (G.n : ℤ))

/-- Keys of a dict, in dict order. -/
def dkeys (D : Dict) : List ℕ :=
  D.map Prod.fst

/-! ### Concrete instances used by the theorems -/

/-- The four-student scenario of spec section 8: edge `(0,1)` with happiness
5 and stress 1, edge `(2,3)` with happiness 3 and stress 1. -/
def G4 : Graph := ⟨4, [⟨0, 1, 5, 1⟩, ⟨2, 3, 3, 1⟩]⟩

/-- Two students joined by an edge of stress 10 (above any budget used with
it below). -/
def Gtwo : Graph := ⟨2, [⟨0, 1, 5, 10⟩]⟩

/-- The two-singleton partition of `Gtwo`. -/
def Dtwo : Dict := [(0, 0), (1, 1)]

/-- Two students joined by a zero-stress edge. -/
def Gpair : Graph := ⟨2, [⟨0, 1, 1, 0⟩]⟩

/-- Four isolated students with two happiness edges, used to exercise the
move2 driver directly. -/
def G3 : Graph := ⟨4, [⟨0, 1, 10, 0⟩, ⟨2, 3, 1, 0⟩]⟩

/-- All-singleton partition for `G3`. -/
def D3 : Dict := [(0, 0), (1, 1), (2, 2), (3, 3)]

/-- Five students: `{0,1}` are a happy pair (happiness 10, stress 0); every
pair crossing `{0,1}` has stress 1000; among the singles `2,3,4`, the pairs
`(2,3)` and `(2,4)` have stress 2 (above the move ceiling `4/3`, at the
move2 ceiling `4/2`) and `(3,4)` has stress 1000; `(2,4)` carries
happiness 9. With budget `s = 4` this drives the `seqVND` loop into a cycle. -/
def G5 : Graph :=
  ⟨5, [⟨0, 1, 10, 0⟩, ⟨0, 2, 0, 1000⟩, ⟨0, 3, 0, 1000⟩, ⟨0, 4, 0, 1000⟩,
       ⟨1, 2, 0, 1000⟩, ⟨1, 3, 0, 1000⟩, ⟨1, 4, 0, 1000⟩, ⟨2, 3, 0, 2⟩,
       ⟨2, 4, 9, 2⟩, ⟨3, 4, 0, 1000⟩]⟩

/-- Partition of `G5`: pair `{0,1}` in room 0, singletons 2, 3, 4 in rooms
2, 1, 3. A complete partition with `k = 4` distinct rooms. -/
def DA : Dict := [(0, 0), (1, 0), (2, 2), (3, 1), (4, 3)]

/-- The partition reached from `DA` after one accepted move2 transition:
students 2 and 4 have exchanged room labels. -/
def DB : Dict := [(0, 0), (1, 0), (2, 3), (3, 1), (4, 2)]

/-! ### C1 -/

/-- C1: refuted at the spec's own section-8 scenario. `solve` on `G4` with
budget 10 accepts no move, so it returns the initial mapping together with
the nominal room count `k = 4` from `create_initial_mapping`, although the
returned partition uses only 2 distinct room identifiers. The claim that the
returned `k` equals the number of distinct rooms in the returned partition
is false. -/
theorem c1_returned_k_not_distinct_count :
    solve G4 10 10 = .done [(0, 0), (1, 0), (2, 1), (3, 1)] 4 ∧
    distinctCount [(0, 0), (1, 0), (2, 1), (3, 1)] = 2 := by
  refine ⟨by with_unfolding_all decide, by with_unfolding_all decide⟩

/-! ### C2 -/

/-- C2: refuted. The source line `D[student2], D[student1] = D[student2],
D[student1]` assigns each student their own current room, so `swap` leaves
the partition unchanged: on `D = [(0,0),(1,1)]` both students keep their
rooms, while the claim requires student 0 to end in room 1 and student 1 in
room 0. -/
theorem c2_swap_is_noop :
    swap 0 1 [(0, 0), (1, 1)] = [(0, 0), (1, 1)] ∧
    dlookup (swap 0 1 [(0, 0), (1, 1)]) 0 = 0 ∧
    dlookup (swap 0 1 [(0, 0), (1, 1)]) 1 = 1 := by
  refine ⟨by with_unfolding_all decide, by with_unfolding_all decide, by with_unfolding_all decide⟩

/-! ### C3 -/

/-- C3: refuted for the move2 driver. On the candidate list
`[((0,1),(1,1)), ((2,3),(3,3))]` the first candidate scores happiness 10 and
the second scores 1, yet `local_search_move2` applies the LAST candidate
(line 239 of the source uses the loop variable `change` instead of
`best_move`) and returns the best happiness 10 alongside a partition whose
actual happiness is 1. -/
theorem c3_move2_driver_applies_last_not_best :
    local_search_move2 D3 G3 [((0, 1), (1, 1)), ((2, 3), (3, 3))] =
      ([(0, 0), (1, 1), (2, 3), (3, 3)], 10) ∧
    calculate_happiness [(0, 0), (1, 1), (2, 3), (3, 3)] G3 = 1 ∧
    calculate_happiness (move2 0 1 1 1 D3) G3 = 10 := by
  refine ⟨by with_unfolding_all decide, by with_unfolding_all decide, by with_unfolding_all decide⟩

/-! ### C4 -/

/-- C4: refuted. None of the feasibility predicates guards its ceiling
divisor: `is_valid_move2` with `k = 2` divides by `k - 2 = 0` and raises
`ZeroDivisionError` (modelled as `none`) instead of returning false, and the
faulting call is reached by `solve` itself on a two-student graph whose edge
stress exceeds the budget (the move2 generator probes `is_valid_move2(0, 0,
1, 1, …)` with `k = 2`). -/
theorem c4_divisor_zero_faults :
    is_valid_move2 0 0 1 1 Dtwo (roomToS Dtwo) 2 Gtwo 4 = none ∧
    solve Gtwo 4 10 = .fault := by
  refine ⟨by with_unfolding_all decide, by with_unfolding_all decide⟩

/-! ### C5 -/

/-- C5: refuted. Running `seqVND(G5, 4, DA, 4)` the controller passes
through neighborhoods 1 and 2 without accepting, then ACCEPTS a move2
transition (the driver reports best happiness 19 > 10, resetting the
neighborhood to 1) — but the adopted partition is the LAST candidate, whose
recomputed total happiness is 10, NOT strictly greater than the previous
total happiness 10. -/
theorem c5_accepted_transition_without_increase :
    mkVState G5 DA 4 = ⟨DA, 4, 10, 1⟩ ∧
    vndStep G5 4 ⟨DA, 4, 10, 1⟩ = some ⟨DA, 4, 10, 2⟩ ∧
    vndStep G5 4 ⟨DA, 4, 10, 2⟩ = some ⟨DA, 4, 10, 3⟩ ∧
    vndStep G5 4 ⟨DA, 4, 10, 3⟩ = some ⟨DB, 4, 10, 1⟩ ∧
    calculate_happiness DB G5 = calculate_happiness DA G5 := by
  refine ⟨by with_unfolding_all decide, by with_unfolding_all decide, by with_unfolding_all decide, by with_unfolding_all decide, by with_unfolding_all decide⟩

/-! ### C6 -/

/-- Unfolding of one fuelled loop iteration when the step succeeds. -/
theorem vndRun_step (G : Graph) (s : ℚ) (fuel : ℕ) (st st2 : VState)
    (h1 : ¬ st.nbh > 3) (h2 : vndStep G s st = some st2) :
    vndRun G s (fuel + 1) st = vndRun G s fuel st2 := by
  simp [vndRun, h1, h2]

/-- The `seqVND` loop on `(G5, 4)` starting from `DA` returns to the same
state every six iterations: neighborhoods 1 and 2 reject, the move2 stage
applies its last candidate (relabelling the singletons' rooms) and accepts,
twice over. -/
theorem vnd_cycle_six (n : ℕ) :
    vndRun G5 4 (n + 6) ⟨DA, 4, 10, 1⟩ = vndRun G5 4 n ⟨DA, 4, 10, 1⟩ := by
  rw [show n + 6 = (n + 5) + 1 from rfl,
    vndRun_step G5 4 (n + 5) ⟨DA, 4, 10, 1⟩ ⟨DA, 4, 10, 2⟩ (by with_unfolding_all decide) (by with_unfolding_all decide),
    show n + 5 = (n + 4) + 1 from rfl,
    vndRun_step G5 4 (n + 4) ⟨DA, 4, 10, 2⟩ ⟨DA, 4, 10, 3⟩ (by with_unfolding_all decide) (by with_unfolding_all decide),
    show n + 4 = (n + 3) + 1 from rfl,
    vndRun_step G5 4 (n + 3) ⟨DA, 4, 10, 3⟩ ⟨DB, 4, 10, 1⟩ (by with_unfolding_all decide) (by with_unfolding_all decide),
    show n + 3 = (n + 2) + 1 from rfl,
    vndRun_step G5 4 (n + 2) ⟨DB, 4, 10, 1⟩ ⟨DB, 4, 10, 2⟩ (by with_unfolding_all decide) (by with_unfolding_all decide),
    show n + 2 = (n + 1) + 1 from rfl,
    vndRun_step G5 4 (n + 1) ⟨DB, 4, 10, 2⟩ ⟨DB, 4, 10, 3⟩ (by with_unfolding_all decide) (by with_unfolding_all decide),
    vndRun_step G5 4 n ⟨DB, 4, 10, 3⟩ ⟨DA, 4, 10, 1⟩ (by with_unfolding_all decide) (by with_unfolding_all decide)]

/-- However much fuel it is given, the loop from `⟨DA, 4, 10, 1⟩` never
exits normally. -/
theorem vnd_never_done : ∀ n, isDone (vndRun G5 4 n ⟨DA, 4, 10, 1⟩) = false
  | 0 => by with_unfolding_all decide
  | 1 => by with_unfolding_all decide
  | 2 => by with_unfolding_all decide
  | 3 => by with_unfolding_all decide
  | 4 => by with_unfolding_all decide
  | 5 => by with_unfolding_all decide
  | n + 6 => by rw [vnd_cycle_six n]; exact vnd_never_done n

/-- C6: refuted. On the finite graph `G5` with budget 4 and the complete
entry partition `DA`, the `seqVND` while loop never terminates: it cycles
with period six through states of equal total happiness, because the
accepted move2 transitions do not strictly increase happiness (the driver
adopts its last candidate, which merely relabels rooms). -/
theorem c6_nontermination :
    mkVState G5 DA 4 = ⟨DA, 4, 10, 1⟩ ∧
    ∀ fuel, isDone (vndRun G5 4 fuel (mkVState G5 DA 4)) = false := by
  refine ⟨by with_unfolding_all decide, fun fuel => ?_⟩
  have h : mkVState G5 DA 4 = ⟨DA, 4, 10, 1⟩ := by with_unfolding_all decide
  rw [h]
  exact vnd_never_done fuel

/-! ### C8 -/

/-- C8: refuted on the degenerate-swap clause. With both students alone in
their rooms (both occupancy lists have length 1) the source's guard compares
the lengths with 0 — a condition that can never hold — so the inert swap is
NOT rejected: `is_valid_swap` returns true where the claim requires false. -/
theorem c8_singleton_swap_not_rejected :
    (roomToS Dtwo 0).length = 1 ∧ (roomToS Dtwo 1).length = 1 ∧
    is_valid_swap 0 1 Dtwo (roomToS Dtwo) 2 Gpair 0 = some true := by
  refine ⟨by with_unfolding_all decide, by with_unfolding_all decide, by with_unfolding_all decide⟩

/-! ### C7 -/

/-- A present key's looked-up value is one of the dict's values. -/
theorem dlookup_mem_dvalues (D : Dict) (a : ℕ) (h : hasKey D a = true) :
    dlookup D a ∈ dvalues D := by
  unfold hasKey at h
  obtain ⟨p, hp, hpa⟩ := List.any_eq_true.mp h
  have hfind : (D.find? (fun q => q.1 = a)).isSome := by
    rw [List.find?_isSome]
    exact ⟨p, hp, hpa⟩
  obtain ⟨q, hq⟩ := Option.isSome_iff_exists.mp hfind
  have hmem : q ∈ D := List.mem_of_find?_eq_some hq
  have : dlookup D a = q.2 := by unfold dlookup; rw [hq]; rfl
  rw [this]
  exact List.mem_map_of_mem Prod.snd hmem

/-- Two distinct values in use force at least two distinct rooms. -/
theorem two_le_distinctCount (D : Dict) (a b : ℕ) (ha : a ∈ dvalues D)
    (hb : b ∈ dvalues D) (hab : a ≠ b) : 2 ≤ distinctCount D := by
  have hcard : 1 < (dvalues D).toFinset.card :=
    Finset.one_lt_card.mpr
      ⟨a, List.mem_toFinset.mpr ha, b, List.mem_toFinset.mpr hb, hab⟩
  have := List.card_toFinset (dvalues D)
  unfold distinctCount
  omega

/-- One value in use forces at least one distinct room. -/
theorem one_le_distinctCount (D : Dict) (a : ℕ) (ha : a ∈ dvalues D) :
    1 ≤ distinctCount D := by
  have hcard : 0 < (dvalues D).toFinset.card :=
    Finset.card_pos.mpr ⟨a, List.mem_toFinset.mpr ha⟩
  have := List.card_toFinset (dvalues D)
  unfold distinctCount
  omega

/-- C7: confirmed. For a student present in the partition, a target room in
use, the consistent occupancy view derived from `D` and `k` equal to the
number of distinct rooms of `D`, `is_valid_move` raises nothing and returns
exactly the claim's rule: false on a self-move, otherwise the destination
stress check against `s/(k-1)` when the origin room is vacated and against
`s/k` otherwise. -/
theorem c7_can_move_matches_spec (student room : ℕ) (D : Dict) (G : Graph)
    (s : ℚ) (hstu : hasKey D student = true) (hroom : room ∈ dvalues D) :
    is_valid_move student room D (roomToS D) ((distinctCount D : ℕ) : ℤ) G s =
      some (can_move_specification student room D ((distinctCount D : ℕ) : ℤ) G s) := by
  unfold is_valid_move can_move_specification
  by_cases h1 : dlookup D student = room
  · simp only [if_pos h1]
  · simp only [if_neg h1]
    by_cases h2 : (roomToS D (dlookup D student)).length = 1
    · simp only [if_pos h2]
      have hcur : dlookup D student ∈ dvalues D := dlookup_mem_dvalues D student hstu
      have h2le : 2 ≤ distinctCount D := two_le_distinctCount D _ _ hcur hroom h1
      have hne : ¬ ((distinctCount D : ℤ) - 1 = 0) := by
        omega
      rw [if_neg hne]
      rcases le_or_lt (calculate_stress_for_room (roomToS D room ++ [student]) G)
          (s / (((distinctCount D : ℤ) - 1 : ℤ) : ℚ)) with h3 | h3
      · rw [if_neg (not_lt.mpr h3), decide_eq_true h3]
      · rw [if_pos h3, decide_eq_false (not_le.mpr h3)]
    · simp only [if_neg h2]
      have h1le : 1 ≤ distinctCount D := one_le_distinctCount D room hroom
      have hne : ¬ ((distinctCount D : ℤ) = 0) := by
        omega
      rw [if_neg hne]
      rcases le_or_lt (calculate_stress_for_room (roomToS D room ++ [student]) G)
          (s / (((distinctCount D : ℤ) : ℤ) : ℚ)) with h3 | h3
      · rw [if_neg (not_lt.mpr h3), decide_eq_true h3]
      · rw [if_pos h3, decide_eq_false (not_le.mpr h3)]

/-- Witness for C7 at a concrete input: student 0 of `Dtwo` moving into room
1 with the derived occupancy, `k = distinctCount Dtwo` and budget 4. -/
theorem c7_can_move_matches_spec_witness :
    hasKey Dtwo 0 = true ∧ (1 : ℕ) ∈ dvalues Dtwo ∧
    is_valid_move 0 1 Dtwo (roomToS Dtwo) ((distinctCount Dtwo : ℕ) : ℤ) Gtwo 4 =
      some (can_move_specification 0 1 Dtwo ((distinctCount Dtwo : ℕ) : ℤ) Gtwo 4) :=
  ⟨by with_unfolding_all decide, by with_unfolding_all decide,
    c7_can_move_matches_spec 0 1 Dtwo Gtwo 4 (by with_unfolding_all decide)
      (by with_unfolding_all decide)⟩

/-! ### C9 -/

/-- The source's pairing fold computes the spec's pairing recursion. -/
theorem foldl_pairStep_eq (s : ℚ) (N : ℕ) :
    ∀ (l : List Edge) (D : Dict) (c : ℕ),
      l.foldl (pairStep s N) (D, c) = specPairPass s N l D c
  | [], _, _ => rfl
  | e :: rest, D, c => by
    rw [List.foldl_cons]
    simp only [pairStep, specPairPass]
    by_cases h1 : hasKey D e.u = false ∧ hasKey D e.v = false
    · rw [if_pos h1, if_pos h1]
      by_cases h2 : e.stress ≤ s / (N : ℚ)
      · rw [if_pos h2, if_pos h2]
        exact foldl_pairStep_eq s N rest _ _
      · rw [if_neg h2, if_neg h2]
        exact foldl_pairStep_eq s N rest D c
    · rw [if_neg h1, if_neg h1]
      exact foldl_pairStep_eq s N rest D c

/-- The source's singleton fold computes the spec's singleton recursion. -/
theorem foldl_singleStep_eq :
    ∀ (l : List ℕ) (D : Dict) (c : ℕ),
      l.foldl singleStep (D, c) = specSinglePass l D c
  | [], _, _ => rfl
  | i :: rest, D, c => by
    rw [List.foldl_cons]
    simp only [singleStep, specSinglePass]
    by_cases h1 : hasKey D i = false
    · rw [if_pos h1, if_pos h1]
      exact foldl_singleStep_eq rest _ _
    · rw [if_neg h1, if_neg h1]
      exact foldl_singleStep_eq rest D c

/-- Inserting with `insertLe` is a permutation of consing. -/
theorem insertLe_perm (le : α → α → Bool) (x : α) :
    ∀ l : List α, (insertLe le x l).Perm (x :: l)
  | [] => List.Perm.refl _
  | y :: ys => by
    unfold insertLe
    by_cases h : le y x
    · rw [if_pos h]
      exact ((insertLe_perm le x ys).cons y).trans (List.Perm.swap x y ys)
    · rw [if_neg h]

/-- Folding `insertLe` over a list permutes the accumulated elements. -/
theorem foldl_insertLe_perm (le : α → α → Bool) :
    ∀ (l acc : List α),
      (l.foldl (fun a x => insertLe le x a) acc).Perm (acc ++ l)
  | [], acc => by simp
  | x :: rest, acc => by
    rw [List.foldl_cons]
    exact ((foldl_insertLe_perm le rest (insertLe le x acc)).trans
      (((insertLe_perm le x acc).append_right rest).trans
        List.perm_middle.symm))

/-- `insertLe` preserves sortedness for a total transitive comparison. -/
theorem insertLe_pairwise (le : α → α → Bool)
    (htot : ∀ a b, le a b = false → le b a = true)
    (htrans : ∀ a b c, le a b = true → le b c = true → le a c = true)
    (x : α) :
    ∀ l : List α, l.Pairwise (fun a b => le a b = true) →
      (insertLe le x l).Pairwise (fun a b => le a b = true)
  | [], _ => List.pairwise_singleton _ x
  | y :: ys, h => by
    rcases List.pairwise_cons.mp h with ⟨hy, hys⟩
    unfold insertLe
    by_cases hle : le y x
    · rw [if_pos hle]
      refine List.pairwise_cons.mpr ⟨?_, insertLe_pairwise le htot htrans x ys hys⟩
      intro z hz
      have hz3 := (insertLe_perm le x ys).mem_iff.mp hz
      rcases List.mem_cons.mp hz3 with hz1 | hz2
      · rw [hz1]
        exact hle
      · exact hy z hz2
    · rw [if_neg hle]
      refine List.pairwise_cons.mpr ⟨?_, h⟩
      intro z hz
      have hxy : le x y = true := htot y x (by simpa using hle)
      rcases List.mem_cons.mp hz with hz1 | hz2
      · rw [hz1]
        exact hxy
      · exact htrans x y z hxy (hy z hz2)

/-- Folding `insertLe` over a sorted accumulator keeps it sorted. -/
theorem foldl_insertLe_pairwise (le : α → α → Bool)
    (htot : ∀ a b, le a b = false → le b a = true)
    (htrans : ∀ a b c, le a b = true → le b c = true → le a c = true) :
    ∀ (l acc : List α), acc.Pairwise (fun a b => le a b = true) →
      (l.foldl (fun a x => insertLe le x a) acc).Pairwise (fun a b => le a b = true)
  | [], _, h => h
  | x :: rest, acc, h => by
    rw [List.foldl_cons]
    exact foldl_insertLe_pairwise le htot htrans rest _
      (insertLe_pairwise le htot htrans x acc h)

/-- C9: confirmed. `create_initial_mapping` is exactly the spec's builder:
it equals the spec-modelled pass structure on every input, and the edge list
it walks is an ascending-by-stress stable rearrangement of the graph's
edges (sorted and a permutation). The returned room count is `k = N` by the
shared final component. -/
theorem c9_initial_mapping_follows_spec :
    (∀ (G : Graph) (s : ℚ),
      create_initial_mapping G s = initial_mapping_specification G s) ∧
    (∀ l : List Edge,
      (isortEdges l).Pairwise (fun a b => a.stress ≤ b.stress) ∧
      (isortEdges l).Perm l) := by
  constructor
  · intro G s
    simp only [create_initial_mapping, initial_mapping_specification]
    rw [foldl_pairStep_eq s G.n (isortEdges G.edges) [] 0]
    rw [foldl_singleStep_eq (List.range G.n)
      (specPairPass s G.n (isortEdges G.edges) [] 0).1
      (specPairPass s G.n (isortEdges G.edges) [] 0).2]
  · intro l
    constructor
    · have h := foldl_insertLe_pairwise (fun a b => decide (a.stress ≤ b.stress))
        (fun a b hf => by
          rw [decide_eq_true_iff]
          have := of_decide_eq_false hf
          exact le_of_not_le this)
        (fun a b c h1 h2 => by
          rw [decide_eq_true_iff] at *
          exact le_trans h1 h2)
        l [] (List.Pairwise.nil)
      exact h.imp (fun hab => of_decide_eq_true hab)
    · have h := foldl_insertLe_perm (fun a b => decide (a.stress ≤ b.stress)) l []
      simpa using h

/-! ### C10: helper lemmas -/

/-- Elements kept by `optFilter` come from the input list. -/
theorem optFilter_mem (p : α → Option Bool) :
    ∀ (l r : List α), optFilter p l = some r → ∀ a ∈ r, a ∈ l
  | [], r, h, a, ha => by
    simp only [optFilter, Option.some_inj] at h
    rw [← h] at ha
    simp at ha
  | x :: xs, r, h, a, ha => by
    cases hx : p x with
    | none =>
      simp only [optFilter, hx] at h
      exact Option.noConfusion h
    | some b =>
      cases hrest : optFilter p xs with
      | none =>
        simp only [optFilter, hx, hrest] at h
        exact Option.noConfusion h
      | some rest =>
        simp only [optFilter, hx, hrest, Option.some_inj] at h
        subst h
        cases b with
        | true =>
          simp only [if_true] at ha
          rcases List.mem_cons.mp ha with h1 | h2
          · rw [h1]
            exact List.mem_cons_self x xs
          · exact List.mem_cons_of_mem x (optFilter_mem p xs rest hrest a h2)
        | false =>
          have ha2 : a ∈ rest := by simpa using ha
          exact List.mem_cons_of_mem x (optFilter_mem p xs rest hrest a ha2)

/-- The candidate selected by `bestScan` is the running one or comes from
the scanned list. -/
theorem bestScan_mem (score : α → ℚ) :
    ∀ (l : List α) (h : ℚ) (b : Option α) (c : α),
      (bestScan score l h b).2 = some c → b = some c ∨ c ∈ l
  | [], _, _, _, he => Or.inl he
  | x :: xs, h, b, c, he => by
    simp only [bestScan] at he
    by_cases hx : score x > h
    · rw [if_pos hx] at he
      rcases bestScan_mem score xs (score x) (some x) c he with h1 | h2
      · refine Or.inr ?_
        rw [← Option.some_inj.mp h1]
        exact List.mem_cons_self x xs
      · exact Or.inr (List.mem_cons_of_mem x h2)
    · rw [if_neg hx] at he
      rcases bestScan_mem score xs h b c he with h1 | h2
      · exact Or.inl h1
      · exact Or.inr (List.mem_cons_of_mem x h2)

/-- The last element of a list is a member. -/
theorem getLastMem : ∀ (l : List α) (a : α), l.getLast? = some a → a ∈ l
  | [], _, h => by simp at h
  | [x], a, h => by
    rw [List.getLast?_singleton] at h
    rw [← Option.some_inj.mp h]
    exact List.mem_singleton_self x
  | x :: y :: l, a, h => by
    rw [List.getLast?_cons_cons] at h
    exact List.mem_cons_of_mem x (getLastMem (y :: l) a h)

/-- Sorting room labels does not change membership. -/
theorem roomsInUse_mem (D : Dict) (r : ℕ) (h : r ∈ roomsInUse D) :
    r ∈ dvalues D := by
  unfold roomsInUse sortNat sortLe at h
  have hperm := foldl_insertLe_perm (fun a b => decide (a ≤ b)) (dvalues D).dedup []
  have h2 : r ∈ (dvalues D).dedup := by
    have := hperm.mem_iff.mp h
    simpa using this
  exact List.mem_dedup.mp h2

/-- A dict has a key exactly when the key list contains it. -/
theorem hasKey_iff_mem (D : Dict) (a : ℕ) : hasKey D a = true ↔ a ∈ dkeys D := by
  unfold hasKey dkeys
  rw [List.any_eq_true]
  constructor
  · rintro ⟨p, hp, hpa⟩
    have : p.1 = a := of_decide_eq_true hpa
    rw [← this]
    exact List.mem_map_of_mem Prod.fst hp
  · intro hmem
    obtain ⟨p, hp, hpa⟩ := List.mem_map.mp hmem
    exact ⟨p, hp, decide_eq_true hpa⟩

/-- A dict update can only use the written room besides the rooms already in
use. -/
theorem roomsFin_dset_subset (D : Dict) (a r : ℕ) :
    roomsFin (dset D a r) ⊆ roomsFin D ∪ {r} := by
  intro v hv
  rw [roomsFin, List.mem_toFinset] at hv
  unfold dset at hv
  by_cases hk : hasKey D a = true
  · rw [if_pos hk] at hv
    unfold dvalues at hv
    rw [List.map_map] at hv
    obtain ⟨p, hp, hpv⟩ := List.mem_map.mp hv
    simp only [Function.comp_apply] at hpv
    by_cases hpa : p.1 = a
    · rw [if_pos hpa] at hpv
      refine Finset.mem_union_right _ (Finset.mem_singleton.mpr ?_)
      exact hpv.symm
    · rw [if_neg hpa] at hpv
      refine Finset.mem_union_left _ ?_
      rw [roomsFin, List.mem_toFinset, ← hpv]
      exact List.mem_map_of_mem Prod.snd hp
  · rw [if_neg hk] at hv
    unfold dvalues at hv
    rw [List.map_append] at hv
    rcases List.mem_append.mp hv with h1 | h1
    · exact Finset.mem_union_left _ (by rw [roomsFin, List.mem_toFinset]; exact h1)
    · refine Finset.mem_union_right _ (Finset.mem_singleton.mpr ?_)
      simpa using h1

/-- `move` into a room already in use does not enlarge the room set. -/
theorem roomsFin_move_subset (D : Dict) (a r : ℕ) (hr : r ∈ dvalues D) :
    roomsFin (move a r D) ⊆ roomsFin D := by
  intro v hv
  rcases Finset.mem_union.mp (roomsFin_dset_subset D a r hv) with h | h
  · exact h
  · rw [Finset.mem_singleton] at h
    rw [h, roomsFin, List.mem_toFinset]
    exact hr

/-- `swap` of two present students does not enlarge the room set (it writes
back rooms read from the same dict). -/
theorem roomsFin_swap_subset (D : Dict) (a b : ℕ) (ha : hasKey D a = true)
    (hb : hasKey D b = true) : roomsFin (swap a b D) ⊆ roomsFin D := by
  unfold swap
  intro v hv
  rcases Finset.mem_union.mp
      (roomsFin_dset_subset (dset D b (dlookup D b)) a (dlookup D a) hv) with h | h
  · rcases Finset.mem_union.mp (roomsFin_dset_subset D b (dlookup D b) h) with h2 | h2
    · exact h2
    · rw [Finset.mem_singleton] at h2
      rw [h2, roomsFin, List.mem_toFinset]
      exact dlookup_mem_dvalues D b hb
  · rw [Finset.mem_singleton] at h
    rw [h, roomsFin, List.mem_toFinset]
    exact dlookup_mem_dvalues D a ha

/-- `move2` into rooms already in use does not enlarge the room set. -/
theorem roomsFin_move2_subset (D : Dict) (a b r1 r2 : ℕ)
    (h1 : r1 ∈ dvalues D) (h2 : r2 ∈ dvalues D) :
    roomsFin (move2 a b r1 r2 D) ⊆ roomsFin D := by
  unfold move2
  intro v hv
  rcases Finset.mem_union.mp (roomsFin_dset_subset (dset D a r1) b r2 hv) with h | h
  · rcases Finset.mem_union.mp (roomsFin_dset_subset D a r1 h) with h3 | h3
    · exact h3
    · rw [Finset.mem_singleton] at h3
      rw [h3, roomsFin, List.mem_toFinset]
      exact h1
  · rw [Finset.mem_singleton] at h
    rw [h, roomsFin, List.mem_toFinset]
    exact h2

/-- Fewer rooms in use means a smaller distinct-room count. -/
theorem distinctCount_le_of_subset (D1 D2 : Dict)
    (h : roomsFin D1 ⊆ roomsFin D2) : distinctCount D1 ≤ distinctCount D2 := by
  have h1 := List.card_toFinset (dvalues D1)
  have h2 := List.card_toFinset (dvalues D2)
  have h3 := Finset.card_le_card h
  unfold roomsFin at h3
  unfold distinctCount
  omega

/-- The move driver returns the input partition, possibly with one listed
candidate applied. -/
theorem local_search_move_cases (D : Dict) (G : Graph) (cands : List (ℕ × ℕ)) :
    (local_search_move D G cands).1 = D ∨
      ∃ c ∈ cands, (local_search_move D G cands).1 = move c.1 c.2 D := by
  simp only [local_search_move]
  cases hb : (bestScan (fun c => calculate_happiness (move c.1 c.2 D) G) cands 0 none).2 with
  | none => exact Or.inl rfl
  | some c =>
    rcases bestScan_mem _ cands 0 none c hb with h1 | h2
    · exact Option.noConfusion h1
    · exact Or.inr ⟨c, h2, rfl⟩

/-- The swap driver returns the input partition, possibly with one listed
candidate applied. -/
theorem local_search_swap_cases (D : Dict) (G : Graph) (cands : List (ℕ × ℕ)) :
    (local_search_swap D G cands).1 = D ∨
      ∃ c ∈ cands, (local_search_swap D G cands).1 = swap c.1 c.2 D := by
  simp only [local_search_swap]
  cases hb : (bestScan (fun c => calculate_happiness (swap c.1 c.2 D) G) cands 0 none).2 with
  | none => exact Or.inl rfl
  | some c =>
    rcases bestScan_mem _ cands 0 none c hb with h1 | h2
    · exact Option.noConfusion h1
    · exact Or.inr ⟨c, h2, rfl⟩

/-- The move2 driver returns the input partition, possibly with one listed
candidate applied (in the source it is the last candidate, but it is still a
listed one). -/
theorem local_search_move2_cases (D : Dict) (G : Graph)
    (cands : List ((ℕ × ℕ) × (ℕ × ℕ))) :
    (local_search_move2 D G cands).1 = D ∨
      ∃ c ∈ cands, (local_search_move2 D G cands).1 = move2 c.1.1 c.2.1 c.1.2 c.2.2 D := by
  simp only [local_search_move2]
  cases hb : (bestScan
      (fun c => calculate_happiness (move2 c.1.1 c.2.1 c.1.2 c.2.2 D) G) cands 0 none).2 with
  | none => exact Or.inl rfl
  | some c0 =>
    cases hl : cands.getLast? with
    | none => exact Or.inl rfl
    | some c => exact Or.inr ⟨c, getLastMem cands c hl, rfl⟩

/-- Every candidate of the move neighborhood targets a room in use. -/
theorem move_neighborhood_room_mem (G : Graph) (s : ℚ) (D : Dict) (k : ℤ)
    (cs : List (ℕ × ℕ)) (h : move_neighborhood G s D k = some cs) :
    ∀ c ∈ cs, c.2 ∈ dvalues D := by
  intro c hc
  unfold move_neighborhood at h
  have hmem := optFilter_mem _ _ cs h c hc
  obtain ⟨student, _, hc2⟩ := List.mem_flatMap.mp hmem
  obtain ⟨room, hr, hceq⟩ := List.mem_map.mp hc2
  rw [← hceq]
  exact roomsInUse_mem D room hr

/-- Every candidate of the swap neighborhood names two students of the
graph. -/
theorem swap_neighborhood_student_mem (G : Graph) (s : ℚ) (D : Dict) (k : ℤ)
    (cs : List (ℕ × ℕ)) (h : swap_neighborhood G s D k = some cs) :
    ∀ c ∈ cs, c.1 < G.n ∧ c.2 < G.n := by
  intro c hc
  unfold swap_neighborhood at h
  have hmem := optFilter_mem _ _ cs h c hc
  obtain ⟨i, hi, hc2⟩ := List.mem_flatMap.mp hmem
  obtain ⟨j, hj, hceq⟩ := List.mem_map.mp hc2
  rw [← hceq]
  exact ⟨List.mem_range.mp hi, List.mem_range.mp hj⟩

/-- Every candidate of the move2 neighborhood targets two rooms in use. -/
theorem move2_neighborhood_room_mem (G : Graph) (s : ℚ) (D : Dict) (k : ℤ)
    (cs : List ((ℕ × ℕ) × (ℕ × ℕ))) (h : move2_neighborhood G s D k = some cs) :
    ∀ c ∈ cs, c.1.2 ∈ dvalues D ∧ c.2.2 ∈ dvalues D := by
  intro c hc
  unfold move2_neighborhood at h
  have hmem := optFilter_mem _ _ cs h c hc
  obtain ⟨s1, _, hc2⟩ := List.mem_flatMap.mp hmem
  obtain ⟨s2, _, hc3⟩ := List.mem_flatMap.mp hc2
  obtain ⟨r1, hr1, hc4⟩ := List.mem_flatMap.mp hc3
  obtain ⟨r2, hr2, hceq⟩ := List.mem_map.mp hc4
  rw [← hceq]
  exact ⟨roomsInUse_mem D r1 hr1, roomsInUse_mem D r2 hr2⟩

/-- The pairing pass of the initial builder keeps the key list duplicate
free and bounded by the student count. -/
theorem pairPass_keys (s : ℚ) (N : ℕ) :
    ∀ (l : List Edge) (D : Dict) (c : ℕ),
      (∀ e ∈ l, e.u < N ∧ e.v < N ∧ e.u ≠ e.v) →
      (dkeys D).Nodup → (∀ x ∈ dkeys D, x < N) →
      (dkeys (l.foldl (pairStep s N) (D, c)).1).Nodup ∧
        ∀ x ∈ dkeys (l.foldl (pairStep s N) (D, c)).1, x < N
  | [], _, _, _, hnd, hlt => ⟨hnd, hlt⟩
  | e :: rest, D, c, hwf, hnd, hlt => by
    rw [List.foldl_cons]
    have hwfe := hwf e (List.mem_cons_self e rest)
    have hwfr : ∀ e2 ∈ rest, e2.u < N ∧ e2.v < N ∧ e2.u ≠ e2.v :=
      fun e2 he2 => hwf e2 (List.mem_cons_of_mem e he2)
    by_cases h1 : hasKey D e.u = false ∧ hasKey D e.v = false
    · by_cases h2 : e.stress ≤ s / (N : ℚ)
      · have hstep : pairStep s N (D, c) e = (D ++ [(e.u, c), (e.v, c)], c + 1) := by
          unfold pairStep
          rw [if_pos h1, if_pos h2]
        rw [hstep]
        have hku : e.u ∉ dkeys D := by
          intro hmem
          rw [← hasKey_iff_mem D e.u] at hmem
          rw [h1.1] at hmem
          exact Bool.noConfusion hmem
        have hkv : e.v ∉ dkeys D := by
          intro hmem
          rw [← hasKey_iff_mem D e.v] at hmem
          rw [h1.2] at hmem
          exact Bool.noConfusion hmem
        refine pairPass_keys s N rest _ _ hwfr ?_ ?_
        · unfold dkeys
          rw [List.map_append]
          rw [List.nodup_append]
          refine ⟨hnd, ?_, ?_⟩
          · simp [hwfe.2.2]
          · intro x hx hx2
            have : x = e.u ∨ x = e.v := by simpa using hx2
            rcases this with h | h
            · exact hku (h ▸ hx)
            · exact hkv (h ▸ hx)
        · intro x hx
          unfold dkeys at hx
          rw [List.map_append] at hx
          rcases List.mem_append.mp hx with h | h
          · exact hlt x h
          · have : x = e.u ∨ x = e.v := by simpa using h
            rcases this with h3 | h3
            · rw [h3]; exact hwfe.1
            · rw [h3]; exact hwfe.2.1
      · have hstep : pairStep s N (D, c) e = (D, c) := by
          unfold pairStep
          rw [if_pos h1, if_neg h2]
        rw [hstep]
        exact pairPass_keys s N rest D c hwfr hnd hlt
    · have hstep : pairStep s N (D, c) e = (D, c) := by
        unfold pairStep
        rw [if_neg h1]
      rw [hstep]
      exact pairPass_keys s N rest D c hwfr hnd hlt

/-- The singleton pass of the initial builder keeps the key list duplicate
free and bounded by the student count. -/
theorem singlePass_keys (N : ℕ) :
    ∀ (l : List ℕ) (D : Dict) (c : ℕ),
      (∀ i ∈ l, i < N) →
      (dkeys D).Nodup → (∀ x ∈ dkeys D, x < N) →
      (dkeys (l.foldl singleStep (D, c)).1).Nodup ∧
        ∀ x ∈ dkeys (l.foldl singleStep (D, c)).1, x < N
  | [], _, _, _, hnd, hlt => ⟨hnd, hlt⟩
  | i :: rest, D, c, hwf, hnd, hlt => by
    rw [List.foldl_cons]
    have hwfi := hwf i (List.mem_cons_self i rest)
    have hwfr : ∀ j ∈ rest, j < N := fun j hj => hwf j (List.mem_cons_of_mem i hj)
    by_cases h1 : hasKey D i = false
    · have hstep : singleStep (D, c) i = (D ++ [(i, c)], c + 1) := by
        unfold singleStep
        rw [if_pos h1]
      rw [hstep]
      have hki : i ∉ dkeys D := by
        intro hmem
        rw [← hasKey_iff_mem D i] at hmem
        rw [h1] at hmem
        exact Bool.noConfusion hmem
      refine singlePass_keys N rest _ _ hwfr ?_ ?_
      · unfold dkeys
        rw [List.map_append, List.nodup_append]
        refine ⟨hnd, by simp, ?_⟩
        intro x hx hx2
        have : x = i := by simpa using hx2
        exact hki (this ▸ hx)
      · intro x hx
        unfold dkeys at hx
        rw [List.map_append] at hx
        rcases List.mem_append.mp hx with h | h
        · exact hlt x h
        · have : x = i := by simpa using h
          rw [this]
          exact hwfi
    · have hstep : singleStep (D, c) i = (D, c) := by
        unfold singleStep
        rw [if_neg h1]
      rw [hstep]
      exact singlePass_keys N rest D c hwfr hnd hlt

/-- On a well-formed graph, the initial mapping uses at most as many
distinct rooms as its nominal returned count `k = N`. -/
theorem initial_distinct_le (G : Graph) (s : ℚ)
    (hwf : ∀ e ∈ G.edges, e.u < G.n ∧ e.v < G.n ∧ e.u ≠ e.v) :
    (distinctCount (create_initial_mapping G s).1 : ℤ) ≤
      (create_initial_mapping G s).2 := by
  have hwfs : ∀ e ∈ isortEdges G.edges, e.u < G.n ∧ e.v < G.n ∧ e.u ≠ e.v := by
    intro e he
    refine hwf e ?_
    have hperm := foldl_insertLe_perm (fun a b => decide (a.stress ≤ b.stress)) G.edges []
    have := hperm.mem_iff.mp he
    simpa using this
  have hpair := pairPass_keys s G.n (isortEdges G.edges) [] 0 hwfs (by simp [dkeys]) (by simp [dkeys])
  have hsingle := singlePass_keys G.n (List.range G.n)
      ((isortEdges G.edges).foldl (pairStep s G.n) ([], 0)).1
      ((isortEdges G.edges).foldl (pairStep s G.n) ([], 0)).2
      (fun j hj => List.mem_range.mp hj) hpair.1 hpair.2
  have hfinal : create_initial_mapping G s =
      (((List.range G.n).foldl singleStep
        ((isortEdges G.edges).foldl (pairStep s G.n) ([], 0))).1, (G.n : ℤ)) := rfl
  set D := (((List.range G.n).foldl singleStep
    ((isortEdges G.edges).foldl (pairStep s G.n) ([], 0))).1) with hD
  have hnd : (dkeys D).Nodup := hsingle.1
  have hbd : ∀ x ∈ dkeys D, x < G.n := hsingle.2
  have hlen : (dkeys D).length ≤ G.n := by
    have hsub : (dkeys D).toFinset ⊆ Finset.range G.n := by
      intro x hx
      exact Finset.mem_range.mpr (hbd x (List.mem_toFinset.mp hx))
    have hcard := Finset.card_le_card hsub
    rw [List.toFinset_card_of_nodup hnd, Finset.card_range] at hcard
    exact hcard
  have hdist : distinctCount D ≤ G.n := by
    have h1 : (dvalues D).dedup.length ≤ (dvalues D).length :=
      (List.dedup_sublist (dvalues D)).length_le
    have h2 : (dvalues D).length = D.length := List.length_map D Prod.snd
    have h3 : (dkeys D).length = D.length := List.length_map D Prod.fst
    unfold distinctCount
    omega
  rw [hfinal]
  show (distinctCount D : ℤ) ≤ (G.n : ℤ)
  exact_mod_cast hdist

/-- C10: confirmed. Candidates emitted by the neighborhood generators only
use room identifiers already in use in the current partition, so along every
successful step of the `seqVND` controller (on a covered partition whose
distinct-room count is at most the stored `k`) the set of rooms in use never
gains an element, the distinct-room count never grows, the stored `k` never
increases, and the invariant `distinctCount ≤ k` is preserved; the invariant
holds at entry because the initial builder uses at most `N` rooms while
returning `k = N`. -/
theorem c10_rooms_never_grow (G : Graph) (s : ℚ) (st st2 : VState)
    (hcov : (List.range G.n).all (fun i => hasKey st.D i) = true)
    (hk : (distinctCount st.D : ℤ) ≤ st.k)
    (hstep : vndStep G s st = some st2) :
    (∀ cs, move_neighborhood G s st.D st.k = some cs →
      ∀ c ∈ cs, c.2 ∈ dvalues st.D) ∧
    (∀ cs, move2_neighborhood G s st.D st.k = some cs →
      ∀ c ∈ cs, c.1.2 ∈ dvalues st.D ∧ c.2.2 ∈ dvalues st.D) ∧
    (∀ (G2 : Graph) (s2 : ℚ),
      (∀ e ∈ G2.edges, e.u < G2.n ∧ e.v < G2.n ∧ e.u ≠ e.v) →
      (distinctCount (create_initial_mapping G2 s2).1 : ℤ) ≤
        (create_initial_mapping G2 s2).2) ∧
    roomsFin st2.D ⊆ roomsFin st.D ∧
    distinctCount st2.D ≤ distinctCount st.D ∧
    st2.k ≤ st.k ∧ (distinctCount st2.D : ℤ) ≤ st2.k := by
  refine ⟨fun cs hcs => move_neighborhood_room_mem G s st.D st.k cs hcs,
    fun cs hcs => move2_neighborhood_room_mem G s st.D st.k cs hcs,
    fun G2 s2 hwf => initial_distinct_le G2 s2 hwf, ?_⟩
  simp only [vndStep] at hstep
  obtain ⟨bd, hdrv, hf⟩ := Option.map_eq_some'.mp hstep
  have hsub : roomsFin bd.1 ⊆ roomsFin st.D := by
    by_cases h1 : st.nbh = 1
    · rw [if_pos h1] at hdrv
      obtain ⟨cs, hcs, hbd⟩ := Option.map_eq_some'.mp hdrv
      rw [← hbd]
      rcases local_search_move_cases st.D G cs with hform | ⟨c, hc, hform⟩
      · rw [hform]
      · rw [hform]
        exact roomsFin_move_subset st.D c.1 c.2
          (move_neighborhood_room_mem G s st.D st.k cs hcs c hc)
    · rw [if_neg h1] at hdrv
      by_cases h2 : st.nbh = 2
      · rw [if_pos h2] at hdrv
        obtain ⟨cs, hcs, hbd⟩ := Option.map_eq_some'.mp hdrv
        rw [← hbd]
        rcases local_search_swap_cases st.D G cs with hform | ⟨c, hc, hform⟩
        · rw [hform]
        · rw [hform]
          have hlt := swap_neighborhood_student_mem G s st.D st.k cs hcs c hc
          have hk1 : hasKey st.D c.1 = true :=
            List.all_eq_true.mp hcov c.1 (List.mem_range.mpr hlt.1)
          have hk2 : hasKey st.D c.2 = true :=
            List.all_eq_true.mp hcov c.2 (List.mem_range.mpr hlt.2)
          exact roomsFin_swap_subset st.D c.1 c.2 hk1 hk2
      · rw [if_neg h2] at hdrv
        obtain ⟨cs, hcs, hbd⟩ := Option.map_eq_some'.mp hdrv
        rw [← hbd]
        rcases local_search_move2_cases st.D G cs with hform | ⟨c, hc, hform⟩
        · rw [hform]
        · rw [hform]
          have hr := move2_neighborhood_room_mem G s st.D st.k cs hcs c hc
          exact roomsFin_move2_subset st.D c.1.1 c.2.1 c.1.2 c.2.2 hr.1 hr.2
  rw [← hf]
  by_cases hacc : bd.2 > st.curr
  · rw [if_pos hacc]
    refine ⟨hsub, distinctCount_le_of_subset _ _ hsub, ?_, ?_⟩
    · show (distinctCount bd.1 : ℤ) ≤ st.k
      have hd := distinctCount_le_of_subset _ _ hsub
      omega
    · show (distinctCount bd.1 : ℤ) ≤ (distinctCount bd.1 : ℤ)
      exact le_refl _
  · rw [if_neg hacc]
    exact ⟨Finset.Subset.refl _, le_refl _, le_refl _, hk⟩

/-- Witness for C10 at a concrete controller step: the state reached by
`solve` on `G4` with budget 10 in neighborhood 1 (here the step advances to
neighborhood 2 without accepting). -/
theorem c10_rooms_never_grow_witness :
    (∀ cs, move_neighborhood G4 10 [(0, 0), (1, 0), (2, 1), (3, 1)] 4 = some cs →
      ∀ c ∈ cs, c.2 ∈ dvalues [(0, 0), (1, 0), (2, 1), (3, 1)]) ∧
    (∀ cs, move2_neighborhood G4 10 [(0, 0), (1, 0), (2, 1), (3, 1)] 4 = some cs →
      ∀ c ∈ cs, c.1.2 ∈ dvalues [(0, 0), (1, 0), (2, 1), (3, 1)] ∧
        c.2.2 ∈ dvalues [(0, 0), (1, 0), (2, 1), (3, 1)]) ∧
    (∀ (G2 : Graph) (s2 : ℚ),
      (∀ e ∈ G2.edges, e.u < G2.n ∧ e.v < G2.n ∧ e.u ≠ e.v) →
      (distinctCount (create_initial_mapping G2 s2).1 : ℤ) ≤
        (create_initial_mapping G2 s2).2) ∧
    roomsFin [(0, 0), (1, 0), (2, 1), (3, 1)] ⊆
      roomsFin [(0, 0), (1, 0), (2, 1), (3, 1)] ∧
    distinctCount [(0, 0), (1, 0), (2, 1), (3, 1)] ≤
      distinctCount [(0, 0), (1, 0), (2, 1), (3, 1)] ∧
    (4 : ℤ) ≤ 4 ∧ (distinctCount [(0, 0), (1, 0), (2, 1), (3, 1)] : ℤ) ≤ 4 :=
  c10_rooms_never_grow G4 10 ⟨[(0, 0), (1, 0), (2, 1), (3, 1)], 4, 8, 1⟩
    ⟨[(0, 0), (1, 0), (2, 1), (3, 1)], 4, 8, 2⟩
    (by with_unfolding_all decide) (by with_unfolding_all decide)
    (by with_unfolding_all decide)

end BreakoutRooms
